import Mathlib

/-!
Malla curricular: prerequisite checklist (`script.js`)

A shallow embedding of the click logic of `script.js`.

Modelling conventions.

* The `NodeList` returned by `document.querySelectorAll('.course')` is a list of
  `Course` records in document order.  An element is identified by its position in that
  list, so a handler that receives `courseElement` receives an index here.
* `classList.contains('approved')` and `classList.contains('blocked')` are the two
  Boolean fields `approved` and `blocked`.
* `localStorage.getItem('approvedCourses')` is `Option (List String)`: `none` is the
  absent key, `some l` a stored JSON array of strings.
* `document.querySelector('.course[data-code="r"]')` is the first course, in document
  order, whose `data-code` equals `r`.  This presumes codes without quotation marks or
  backslashes, for which the attribute selector is exact string comparison.
* `setTimeout` appends a pending callback, with its delay, to `timers`; a callback runs
  only when a `fireTimer` step picks it, so a run made of clicks alone fires none.
* The element `#errorMessage` exists; its text and its `show` class are `errorText` and
  `errorShown`.
-/

namespace Malla

/-- One `.course` element: its `data-code`, `data-name`, raw `data-prerequisites`
attribute (`none` when the attribute is absent) and the two classes the script toggles. -/
structure Course where
  code : String
  name : String
  prerequisites : Option String
  approved : Bool
  blocked : Bool
deriving DecidableEq, Repr

/-- The body of a callback registered with `setTimeout`. -/
inductive TimerAction where
  | removeBlocked (i : Nat)
  | hideError
deriving DecidableEq, Repr

/-- Everything the script reads or writes. -/
structure Page where
  courses : List Course
  storage : Option (List String)
  errorText : String
  errorShown : Bool
  timers : List (Nat × TimerAction)
deriving DecidableEq, Repr

/-- The characters of `s.split(' ')`: a new piece starts after every single space. -/
def splitOnSpace : List Char → List (List Char)
  | [] => [[]]
  | c :: cs =>
    if c = ' ' then [] :: splitOnSpace cs
    else
      match splitOnSpace cs with
      | [] => [[c]]
      | w :: ws => (c :: w) :: ws

/-- JavaScript `s.split(' ')`. -/
def jsSplit (s : String) : List String :=
  (splitOnSpace s.data).map String.mk

/-- Lines 34-35 and 114-115:
`dataset.prerequisites ? dataset.prerequisites.split(' ') : []`.
An absent attribute (`undefined`) and the empty string are both falsy. -/
def prerequisitesOf (c : Course) : List String :=
  match c.prerequisites with
  | none => []
  | some s => if s = "" then [] else jsSplit s

/-- The selector query `document.querySelector('.course[data-code="r"]')`: the first
matching element or `none` for `null`. -/
def querySelector (cs : List Course) (reqCode : String) : Option Course :=
  cs.find? (fun c => c.code == reqCode)

/-- The filter callback of lines 38-41 and 121-124:
`reqElement && !reqElement.classList.contains('approved')`, read as a truth value. -/
def isMissing (cs : List Course) (reqCode : String) : Bool :=
  match querySelector cs reqCode with
  | some reqElement => !reqElement.approved
  | none => false

/-- Lines 38-41: `prerequisites.filter(...)`. -/
def missingPrerequisites (cs : List Course) (prerequisites : List String) : List String :=
  prerequisites.filter (isMissing cs)

/-- Lines 45-48: the display names of the missing prerequisites. -/
def missingNames (cs : List Course) (missing : List String) : List String :=
  missing.map (fun reqCode =>
    match querySelector cs reqCode with
    | some reqElement => reqElement.name
    | none => reqCode)

/-- Line 49: the text handed to `showErrorMessage`. -/
def rejectionMessage (courseName : String) (names : List String) : String :=
  "No puedes aprobar \"" ++ courseName ++
    "\" porque te faltan los siguientes ramos: " ++ ", ".intercalate names ++ "."

/-- Apply `f` to the element at position `i`; nothing happens when there is none. -/
def modifyCourse (i : Nat) (f : Course → Course) (cs : List Course) : List Course :=
  match cs[i]? with
  | some c => cs.set i (f c)
  | none => cs

/-- The call `classList.add('blocked')` / `classList.remove('blocked')` on element `i`. -/
def setBlocked (i : Nat) (b : Bool) (cs : List Course) : List Course :=
  modifyCourse i (fun c => { c with blocked := b }) cs

/-- Lines 156-158. -/
def hideErrorMessage (s : Page) : Page :=
  { s with errorShown := false }

/-- Lines 144-151. -/
def showErrorMessage (message : String) (s : Page) : Page :=
  { s with
    errorText := message
    errorShown := true
    timers := s.timers ++ [(5000, TimerAction.hideError)] }

/-- Line 79 and line 95: `JSON.parse(localStorage.getItem('approvedCourses')) || []`. -/
def readApproved (storage : Option (List String)) : List String :=
  storage.getD []

/-- Lines 81-87: the array that `updateApprovedCoursesInStorage` writes back. -/
def updatedApprovedList (approvedCourses : List String) (courseCode : String)
    (isApproved : Bool) : List String :=
  if isApproved then
    if approvedCourses.contains courseCode then approvedCourses
    else approvedCourses ++ [courseCode]
  else
    approvedCourses.filter (fun code => code != courseCode)

/-- Lines 78-89. -/
def updateApprovedCoursesInStorage (courseCode : String) (isApproved : Bool)
    (s : Page) : Page :=
  { s with storage := some (updatedApprovedList (readApproved s.storage) courseCode isApproved) }

/-- Lines 112-135: the body of the `forEach` callback for the element at position `i`,
run on the current list of elements. -/
def updateBlockedStep (cs : List Course) (i : Nat) : List Course :=
  match cs[i]? with
  | none => cs
  | some course =>
    let prerequisites := prerequisitesOf course
    let isApproved := course.approved
    let isBlocked :=
      if !isApproved && decide (prerequisites.length > 0) then
        decide ((missingPrerequisites cs prerequisites).length > 0)
      else false
    if isBlocked then setBlocked i true cs
    else if !isApproved then setBlocked i false cs
    else cs

/-- Lines 110-137: `courses.forEach(...)`, element by element in document order. -/
def updateAllCoursesBlockedState (s : Page) : Page :=
  { s with courses := (List.range s.courses.length).foldl updateBlockedStep s.courses }

/-- Lines 96-103: the body of the `forEach` callback of `loadApprovedCourses`. -/
def loadStep (approvedCourses : List String) (cs : List Course) (i : Nat) : List Course :=
  modifyCourse i (fun c => { c with approved := approvedCourses.contains c.code }) cs

/-- Lines 94-105. -/
def loadApprovedCourses (s : Page) : Page :=
  let approvedCourses := readApproved s.storage
  updateAllCoursesBlockedState
    { s with courses := (List.range s.courses.length).foldl (loadStep approvedCourses) s.courses }

/-- Lines 67-71. -/
def toggleCourseApproval (courseCode : String) (i : Nat) (s : Page) : Page :=
  let s1 : Page := { s with courses := modifyCourse i (fun c => { c with approved := !c.approved }) s.courses }
  let isApproved : Bool :=
    match s1.courses[i]? with
    | some c => c.approved
    | none => false
  updateAllCoursesBlockedState (updateApprovedCoursesInStorage courseCode isApproved s1)

/-- Lines 33-60. -/
def tryApproveCourse (courseCode courseName : String) (i : Nat) (s : Page) : Page :=
  match s.courses[i]? with
  | none => s
  | some courseElement =>
    let prerequisites := prerequisitesOf courseElement
    let missing := missingPrerequisites s.courses prerequisites
    if missing.length > 0 then
      let names := missingNames s.courses missing
      let s1 := showErrorMessage (rejectionMessage courseName names) s
      let s2 : Page := { s1 with courses := setBlocked i true s1.courses }
      { s2 with timers := s2.timers ++ [(1000, TimerAction.removeBlocked i)] }
    else
      hideErrorMessage (toggleCourseApproval courseCode i s)

/-- The body of a pending callback: line 53 or line 149. -/
def runTimerAction (a : TimerAction) (s : Page) : Page :=
  match a with
  | TimerAction.removeBlocked i => { s with courses := setBlocked i false s.courses }
  | TimerAction.hideError => hideErrorMessage s

/-- The pending callback at position `k` fires: it leaves the queue and its body runs. -/
def fireTimer (s : Page) (k : Nat) : Page :=
  match s.timers[k]? with
  | none => s
  | some (_, a) => runTimerAction a { s with timers := s.timers.eraseIdx k }

/-- Lines 12-24: the click listener of the element at position `i`. -/
def click (s : Page) (i : Nat) : Page :=
  match s.courses[i]? with
  | none => s
  | some course =>
    if course.approved then toggleCourseApproval course.code i s
    else tryApproveCourse course.code course.name i s

/-- A sequence of clicks, first to last. -/
def clicks (s : Page) (is : List Nat) : Page :=
  is.foldl click s

/-- Whether a click on element `i` would be rejected (line 44). -/
def rejects (s : Page) (i : Nat) : Bool :=
  match s.courses[i]? with
  | none => false
  | some course =>
    !course.approved &&
      decide ((missingPrerequisites s.courses (prerequisitesOf course)).length > 0)

/-- Two-course page of the scenarios: `A` without prerequisites and `B` with
prerequisite `A`, none approved, none blocked, nothing stored. -/
def pageAB : Page :=
  { courses :=
      [ { code := "A", name := "Algebra", prerequisites := none, approved := false, blocked := false },
        { code := "B", name := "Calculo", prerequisites := some "A", approved := false, blocked := false } ]
    storage := none
    errorText := ""
    errorShown := false
    timers := [] }

/-- A page whose only course is approved and also carries the class `blocked`. -/
def pageStale : Page :=
  { courses :=
      [ { code := "A", name := "Algebra", prerequisites := none, approved := true, blocked := true } ]
    storage := some ["A"]
    errorText := ""
    errorShown := false
    timers := [] }

/-- The missing prerequisites in the words of the specification: the declared codes, in
declaration order, that name a course on the page which is not approved. -/
def specMissingPrerequisites (cs : List Course) (declared : List String) : List String :=
  declared.filter (fun r => decide (∃ d ∈ cs, d.code = r ∧ d.approved = false))

/-- The element that one `forEach` iteration of `updateAllCoursesBlockedState` leaves in
place of `course` when the document holds `cs` (lines 112-135 on one element). -/
def updateCourse (cs : List Course) (course : Course) : Course :=
  let prerequisites := prerequisitesOf course
  let isApproved := course.approved
  let isBlocked :=
    if !isApproved && decide (prerequisites.length > 0) then
      decide ((missingPrerequisites cs prerequisites).length > 0)
    else false
  if isBlocked then { course with blocked := true }
  else if !isApproved then { course with blocked := false }
  else course

/-- What `querySelector` and the filter callback can see of an element. -/
def Course.view (c : Course) : String × Bool := (c.code, c.approved)

/-- The data attributes of an element, which the script only reads. -/
def Course.static (c : Course) : String × String × Option String :=
  (c.code, c.name, c.prerequisites)

/-- The negation that `classList.toggle('approved')` performs on an element. -/
def toggleApproved (c : Course) : Course :=
  { c with approved := !c.approved }

/-- No two elements of the page share a `data-code`. -/
def UniqueCodes (cs : List Course) : Prop :=
  (cs.map Course.code).Nodup

instance (cs : List Course) : Decidable (UniqueCodes cs) :=
  inferInstanceAs (Decidable (cs.map Course.code).Nodup)

/-- Some declared prerequisite of `c` names a course on the page that is not approved. -/
def HasUnapprovedPrerequisite (cs : List Course) (c : Course) : Prop :=
  ∃ r ∈ prerequisitesOf c, ∃ d ∈ cs, d.code = r ∧ d.approved = false

instance (cs : List Course) (c : Course) : Decidable (HasUnapprovedPrerequisite cs c) :=
  inferInstanceAs (Decidable (∃ r ∈ prerequisitesOf c, ∃ d ∈ cs, d.code = r ∧ d.approved = false))

/-- The blocked rule in the words of the specification: a course is blocked exactly when
it is not approved and one of its prerequisites on the page is not approved. -/
def BlockedRule (cs : List Course) : Prop :=
  ∀ c ∈ cs, (c.blocked = true ↔ c.approved = false ∧ HasUnapprovedPrerequisite cs c)

instance (cs : List Course) : Decidable (BlockedRule cs) :=
  inferInstanceAs (Decidable (∀ c ∈ cs,
    (c.blocked = true ↔ c.approved = false ∧ HasUnapprovedPrerequisite cs c)))

/-- The blocked rule in the terms of the code: the flag equals what
`updateAllCoursesBlockedState` computes for an unapproved course, and is off for an
approved one. -/
def BlockedOK (cs : List Course) : Prop :=
  ∀ c ∈ cs, c.blocked =
    (!c.approved && !(missingPrerequisites cs (prerequisitesOf c)).isEmpty)

/-- The `approved` classes agree with the stored list. -/
def StoredOK (s : Page) : Prop :=
  ∀ c ∈ s.courses, c.approved = (readApproved s.storage).contains c.code

instance (s : Page) : Decidable (StoredOK s) :=
  inferInstanceAs (Decidable (∀ c ∈ s.courses,
    c.approved = (readApproved s.storage).contains c.code))

/-- No element carries the class `blocked`. -/
def NoneBlocked (cs : List Course) : Prop :=
  ∀ c ∈ cs, c.blocked = false

instance (cs : List Course) : Decidable (NoneBlocked cs) :=
  inferInstanceAs (Decidable (∀ c ∈ cs, c.blocked = false))

/-- What the browser can deliver to the page: a click on the element at a position, or
the firing of the pending callback at a position of the timer queue. -/
inductive Event where
  | click (i : Nat)
  | timer (k : Nat)
deriving DecidableEq, Repr

/-- One event handled to completion. -/
def step (s : Page) : Event → Page
  | Event.click i => click s i
  | Event.timer k => fireTimer s k

/-- A sequence of events, first to last. -/
def run (s : Page) (es : List Event) : Page :=
  es.foldl step s

/-- A sequence of timer callbacks, each given by its position in the queue at the time
it fires, with no click in between. -/
def fireTimers (s : Page) (ks : List Nat) : Page :=
  ks.foldl fireTimer s

/-- Every click of the sequence lands on a course that is not approved at the time of the
click, so every click is an approval attempt. -/
def onlyApprovalAttempts : Page → List Nat → Bool
  | _, [] => true
  | s, i :: is =>
    (match s.courses[i]? with
      | some c => !c.approved
      | none => false) && onlyApprovalAttempts (click s i) is

/-- The `data-prerequisites` attribute is absent or empty. -/
def NoPrerequisites (c : Course) : Prop :=
  c.prerequisites = none ∨ c.prerequisites = some ""

instance (c : Course) : Decidable (NoPrerequisites c) :=
  inferInstanceAs (Decidable (c.prerequisites = none ∨ c.prerequisites = some ""))

/-- Prerequisite closure: every approved course has all of its prerequisites that name a
course on the page approved. -/
def PrerequisiteClosed (cs : List Course) : Prop :=
  ∀ c ∈ cs, c.approved = true →
    ∀ r ∈ prerequisitesOf c, ∀ d ∈ cs, d.code = r → d.approved = true

instance (cs : List Course) : Decidable (PrerequisiteClosed cs) :=
  inferInstanceAs (Decidable (∀ c ∈ cs, c.approved = true →
    ∀ r ∈ prerequisitesOf c, ∀ d ∈ cs, d.code = r → d.approved = true))

/-- Every course of `S` (given by its codes) has a prerequisite code in `S` that names a
course on the page: the courses of `S` lie on prerequisite cycles or depend on one. -/
def CycleSet (cs : List Course) (S : List String) : Prop :=
  ∀ c ∈ cs, c.code ∈ S → ∃ r ∈ prerequisitesOf c, r ∈ S ∧ ∃ d ∈ cs, d.code = r

instance (cs : List Course) (S : List String) : Decidable (CycleSet cs S) :=
  inferInstanceAs (Decidable (∀ c ∈ cs, c.code ∈ S →
    ∃ r ∈ prerequisitesOf c, r ∈ S ∧ ∃ d ∈ cs, d.code = r))

/-- Three-course page: `A` without prerequisites, `B` and `C` each with prerequisite `A`,
none approved, none blocked, nothing stored. -/
def pageABC : Page :=
  { courses :=
      [ { code := "A", name := "Algebra", prerequisites := none, approved := false, blocked := false },
        { code := "B", name := "Calculo", prerequisites := some "A", approved := false, blocked := false },
        { code := "C", name := "Fisica", prerequisites := some "A", approved := false, blocked := false } ]
    storage := none
    errorText := ""
    errorShown := false
    timers := [] }

/-- Two courses that require each other, none approved, none blocked, nothing stored. -/
def pageCycle : Page :=
  { courses :=
      [ { code := "X", name := "Taller I", prerequisites := some "Y", approved := false, blocked := false },
        { code := "Y", name := "Taller II", prerequisites := some "X", approved := false, blocked := false },
        { code := "A", name := "Algebra", prerequisites := none, approved := false, blocked := false } ]
    storage := none
    errorText := ""
    errorShown := false
    timers := [] }

/-- No course without declared prerequisites carries the class `blocked`. -/
def FreeUnblocked (cs : List Course) : Prop :=
  ∀ c ∈ cs, prerequisitesOf c = [] → c.blocked = false

/-- The name shown for a prerequisite code, in the words of the specification: the
display name of the course the code refers to, or the raw code if no course on the page
has that code. -/
def IsDisplayName (cs : List Course) (r n : String) : Prop :=
  (∃ d ∈ cs, d.code = r ∧ querySelector cs r = some d ∧ n = d.name) ∨
    ((∀ d ∈ cs, d.code ≠ r) ∧ n = r)

/-- The state after a click on element `i`, then the timer callbacks `ks` with no click
in between, then the callback at position `k` of the queue. -/
def afterPulse (s : Page) (i : Nat) (ks : List Nat) (k : Nat) : Page :=
  fireTimer (fireTimers (click s i) ks) k

/-! ## Elements and `forEach` loops -/

theorem getElem?_modifyCourse (i j : Nat) (f : Course → Course) (cs : List Course) :
    (modifyCourse i f cs)[j]? = if i = j then cs[j]?.map f else cs[j]? := by
  unfold modifyCourse
  cases h : cs[i]? with
  | none =>
    by_cases hij : i = j
    · subst hij; simp [h]
    · simp [hij]
  | some c =>
    by_cases hij : i = j
    · subst hij
      have hlt : i < cs.length := (List.getElem?_eq_some.mp h).1
      simp [List.getElem?_set, hlt, h]
    · simp [List.getElem?_set, hij]

theorem length_modifyCourse (i : Nat) (f : Course → Course) (cs : List Course) :
    (modifyCourse i f cs).length = cs.length := by
  unfold modifyCourse
  cases cs[i]? <;> simp

/-- A `forEach` loop whose callback rewrites only its own element, by a function `g` of
the document that the rewrites do not disturb, is a `map`. -/
theorem forEach_getElem? (g : List Course → Course → Course) (cs : List Course)
    (R : List Course → Prop) (hR0 : R cs)
    (hRstep : ∀ l i, R l → R (modifyCourse i (g cs) l))
    (hRg : ∀ l, R l → g l = g cs) (k : Nat) :
    R ((List.range k).foldl (fun l i => modifyCourse i (g l) l) cs) ∧
    ∀ j, ((List.range k).foldl (fun l i => modifyCourse i (g l) l) cs)[j]? =
      if j < k then cs[j]?.map (g cs) else cs[j]? := by
  induction k with
  | zero => simpa using hR0
  | succ k ih =>
    obtain ⟨ihR, ih⟩ := ih
    rw [List.range_succ, List.foldl_append]
    simp only [List.foldl_cons, List.foldl_nil]
    rw [hRg _ ihR]
    refine ⟨hRstep _ _ ihR, fun j => ?_⟩
    rw [getElem?_modifyCourse, ih]
    by_cases hkj : k = j
    · subst hkj; simp
    · have : (j < k + 1) ↔ (j < k) := by omega
      simp [hkj, this]

theorem modifyCourse_fix (i : Nat) (f : Course → Course) (cs : List Course) (c : Course)
    (h : cs[i]? = some c) (hf : f c = c) : modifyCourse i f cs = cs := by
  apply List.ext_getElem?
  intro j
  rw [getElem?_modifyCourse]
  split
  · subst_vars; simp [h, hf]
  · rfl

theorem modifyCourse_congr (i : Nat) (f g : Course → Course) (cs : List Course) (c : Course)
    (h : cs[i]? = some c) (hf : f c = g c) : modifyCourse i f cs = modifyCourse i g cs := by
  apply List.ext_getElem?
  intro j
  rw [getElem?_modifyCourse, getElem?_modifyCourse]
  split
  · subst_vars; simp [h, hf]
  · rfl

theorem missingPrerequisites_nil (cs : List Course) : missingPrerequisites cs [] = [] := rfl

/-- The element left by `updateCourse`, with the loop's local variables folded away. -/
theorem updateCourse_eq (cs : List Course) (c : Course) :
    updateCourse cs c =
      { c with blocked :=
          if c.approved then c.blocked
          else !(missingPrerequisites cs (prerequisitesOf c)).isEmpty } := by
  rcases c with ⟨code, name, pre, a, b⟩
  unfold updateCourse
  cases a
  · cases hp : prerequisitesOf ⟨code, name, pre, false, b⟩ with
    | nil => simp [missingPrerequisites_nil]
    | cons y ys =>
      cases hm : missingPrerequisites cs (y :: ys) with
      | nil => simp [hm]
      | cons x xs => simp [hm]
  · simp

theorem updateBlockedStep_aux (cs : List Course) (i : Nat) (c : Course)
    (h : cs[i]? = some c) (B a : Bool) :
    (if B then setBlocked i true cs else if !a then setBlocked i false cs else cs) =
      modifyCourse i (fun d => if B then { d with blocked := true }
        else if !a then { d with blocked := false } else d) cs := by
  cases B <;> cases a <;> simp [setBlocked]
  exact (modifyCourse_fix i _ cs c h rfl).symm

theorem updateBlockedStep_eq (cs : List Course) (i : Nat) :
    updateBlockedStep cs i = modifyCourse i (updateCourse cs) cs := by
  unfold updateBlockedStep
  cases h : cs[i]? with
  | none => simp [modifyCourse, h]
  | some c =>
    simp only
    rw [updateBlockedStep_aux cs i c h]
    exact modifyCourse_congr i _ _ cs c h rfl

theorem querySelector_congr {cs cs' : List Course}
    (h : cs.map Course.view = cs'.map Course.view) (r : String) :
    (querySelector cs r).map Course.view = (querySelector cs' r).map Course.view := by
  have key : ∀ l : List Course, (querySelector l r).map Course.view =
      (l.map Course.view).find? (fun v => v.1 == r) := by
    intro l
    simp only [querySelector, List.find?_map]
    rfl
  rw [key, key, h]

theorem isMissing_congr {cs cs' : List Course}
    (h : cs.map Course.view = cs'.map Course.view) : isMissing cs = isMissing cs' := by
  funext r
  have hq := querySelector_congr h r
  unfold isMissing
  cases h1 : querySelector cs r <;> cases h2 : querySelector cs' r <;>
    simp only [h1, h2, Option.map_some', Option.map_none', Option.some.injEq] at hq ⊢
  · cases hq
  · cases hq
  · exact congrArg (fun v => !v.2) hq

theorem updateCourse_congr {cs cs' : List Course}
    (h : cs.map Course.view = cs'.map Course.view) : updateCourse cs = updateCourse cs' := by
  funext c
  simp only [updateCourse, missingPrerequisites, isMissing_congr h]

theorem view_updateCourse (cs : List Course) (c : Course) :
    (updateCourse cs c).view = c.view := by
  rw [updateCourse_eq]
  rfl

theorem map_view_modifyCourse (i : Nat) (f : Course → Course) (l : List Course)
    (hf : ∀ c, (f c).view = c.view) :
    (modifyCourse i f l).map Course.view = l.map Course.view := by
  apply List.ext_getElem?
  intro j
  simp only [List.getElem?_map, getElem?_modifyCourse]
  split
  · cases l[j]? <;> simp [hf]
  · rfl

/-- The loop of `updateAllCoursesBlockedState` rewrites every element by `updateCourse`,
evaluated on the document as it was when the loop started. -/
theorem updateAll_courses (s : Page) :
    (updateAllCoursesBlockedState s).courses = s.courses.map (updateCourse s.courses) := by
  have hfun : updateBlockedStep = fun l i => modifyCourse i (updateCourse l) l := by
    funext l i; exact updateBlockedStep_eq l i
  have h := (forEach_getElem? updateCourse s.courses
    (fun l => l.map Course.view = s.courses.map Course.view) rfl
    (fun l i hl => by
      show (modifyCourse i _ l).map Course.view = _
      rw [map_view_modifyCourse i _ l (view_updateCourse _), hl])
    (fun l hl => updateCourse_congr hl) s.courses.length).2
  show (List.range s.courses.length).foldl updateBlockedStep s.courses = _
  rw [hfun]
  apply List.ext_getElem?
  intro j
  rw [h j, List.getElem?_map]
  split
  · rfl
  · rename_i hj
    rw [List.getElem?_eq_none (by omega)]
    rfl

theorem updateAll_storage (s : Page) : (updateAllCoursesBlockedState s).storage = s.storage := rfl

/-- The loop of `loadApprovedCourses` sets every `approved` class from the stored list. -/
theorem load_courses (s : Page) :
    (loadApprovedCourses s).courses =
      (s.courses.map (fun c => { c with approved := (readApproved s.storage).contains c.code })).map
        (updateCourse (s.courses.map
          (fun c => { c with approved := (readApproved s.storage).contains c.code }))) := by
  have h := (forEach_getElem?
    (fun _ c => ({ c with approved := (readApproved s.storage).contains c.code } : Course))
    s.courses (fun _ => True) trivial (fun _ _ _ => trivial) (fun _ _ => rfl)
    s.courses.length).2
  have hl : (List.range s.courses.length).foldl (loadStep (readApproved s.storage)) s.courses =
      s.courses.map (fun c => { c with approved := (readApproved s.storage).contains c.code }) := by
    apply List.ext_getElem?
    intro j
    have hfun : loadStep (readApproved s.storage) = fun l i => modifyCourse i
        (fun c => ({ c with approved := (readApproved s.storage).contains c.code } : Course)) l := by
      funext l i; rfl
    rw [hfun, h j, List.getElem?_map]
    split
    · rfl
    · rename_i hj
      rw [List.getElem?_eq_none (by omega)]
      rfl
  unfold loadApprovedCourses
  simp only [updateAll_courses, hl]

theorem load_storage (s : Page) : (loadApprovedCourses s).storage = s.storage := rfl

/-! ## The three outcomes of a click -/

theorem mem_modifyCourse {i : Nat} {f : Course → Course} {cs : List Course} {c : Course}
    (h : c ∈ modifyCourse i f cs) :
    (∃ j, j ≠ i ∧ cs[j]? = some c) ∨ (∃ ci, cs[i]? = some ci ∧ c = f ci) := by
  obtain ⟨j, hj⟩ := List.mem_iff_getElem?.mp h
  rw [getElem?_modifyCourse] at hj
  split at hj
  · rename_i hij
    subst hij
    cases hc : cs[i]? with
    | none => simp [hc] at hj
    | some ci =>
      simp only [hc, Option.map_some', Option.some.injEq] at hj
      exact Or.inr ⟨ci, rfl, hj.symm⟩
  · rename_i hij
    exact Or.inl ⟨j, fun h => hij h.symm, hj⟩

theorem toggle_courses (code : String) (i : Nat) (s : Page) :
    (toggleCourseApproval code i s).courses =
      (modifyCourse i toggleApproved s.courses).map
        (updateCourse (modifyCourse i toggleApproved s.courses)) := by
  unfold toggleCourseApproval
  simp only [updateAll_courses]
  rfl

theorem toggle_storage (code : String) (i : Nat) (s : Page) (c : Course)
    (h : s.courses[i]? = some c) :
    (toggleCourseApproval code i s).storage =
      some (updatedApprovedList (readApproved s.storage) code (!c.approved)) := by
  unfold toggleCourseApproval
  simp only [updateAll_storage, updateApprovedCoursesInStorage, getElem?_modifyCourse, h]
  simp

theorem click_unapprove (s : Page) (i : Nat) (c : Course)
    (h : s.courses[i]? = some c) (ha : c.approved = true) :
    click s i = toggleCourseApproval c.code i s := by
  simp [click, h, ha]

theorem click_approve (s : Page) (i : Nat) (c : Course)
    (h : s.courses[i]? = some c) (ha : c.approved = false)
    (hm : missingPrerequisites s.courses (prerequisitesOf c) = []) :
    click s i = hideErrorMessage (toggleCourseApproval c.code i s) := by
  simp [click, h, ha, tryApproveCourse, hm]

theorem click_reject (s : Page) (i : Nat) (c : Course)
    (h : s.courses[i]? = some c) (ha : c.approved = false)
    (hm : missingPrerequisites s.courses (prerequisitesOf c) ≠ []) :
    (click s i).courses = setBlocked i true s.courses ∧ (click s i).storage = s.storage := by
  have hlen : 0 < (missingPrerequisites s.courses (prerequisitesOf c)).length :=
    List.length_pos.mpr hm
  simp [click, h, ha, tryApproveCourse, hlen, showErrorMessage]

theorem click_none (s : Page) (i : Nat) (h : s.courses[i]? = none) : click s i = s := by
  simp [click, h]

/-! ## The blocked rule along a run -/

theorem missingPrerequisites_congr {cs cs' : List Course}
    (h : cs.map Course.view = cs'.map Course.view) (l : List String) :
    missingPrerequisites cs l = missingPrerequisites cs' l := by
  simp only [missingPrerequisites, isMissing_congr h]

theorem map_view_update (cs l : List Course) :
    (l.map (updateCourse cs)).map Course.view = l.map Course.view := by
  rw [List.map_map]
  apply List.map_congr_left
  intro c _
  exact view_updateCourse cs c

theorem prerequisitesOf_updateCourse (cs : List Course) (c : Course) :
    prerequisitesOf (updateCourse cs c) = prerequisitesOf c := by
  rw [updateCourse_eq]; rfl

theorem blockedOK_update (cs : List Course)
    (h : ∀ c ∈ cs, c.approved = true → c.blocked = false) :
    BlockedOK (cs.map (updateCourse cs)) := by
  intro c' hc'
  obtain ⟨c, hc, rfl⟩ := List.mem_map.mp hc'
  rw [missingPrerequisites_congr (map_view_update cs cs), prerequisitesOf_updateCourse]
  rw [updateCourse_eq]
  cases ha : c.approved
  · simp
  · simpa [ha] using h c hc ha

theorem blockedOK_load (s : Page) (h : NoneBlocked s.courses) :
    BlockedOK (loadApprovedCourses s).courses := by
  rw [load_courses]
  apply blockedOK_update
  intro c hc _
  obtain ⟨d, hd, rfl⟩ := List.mem_map.mp hc
  exact h d hd

theorem blockedOK_toggle (s : Page) (i : Nat) (c : Course) (code : String)
    (hinv : BlockedOK s.courses) (h : s.courses[i]? = some c)
    (hc : c.approved = false → missingPrerequisites s.courses (prerequisitesOf c) = []) :
    BlockedOK (toggleCourseApproval code i s).courses := by
  rw [toggle_courses]
  apply blockedOK_update
  intro d hd hda
  rcases mem_modifyCourse hd with ⟨j, _, hj⟩ | ⟨ci, hci, rfl⟩
  · have := hinv d (List.getElem?_mem hj)
    simpa [hda] using this
  · rw [h] at hci
    cases hci
    have hcf : c.approved = false := by simpa [toggleApproved] using hda
    have := hinv c (List.getElem?_mem h)
    simpa [toggleApproved, hcf, hc hcf] using this

theorem blockedOK_click (s : Page) (i : Nat) (hinv : BlockedOK s.courses) :
    BlockedOK (click s i).courses := by
  cases h : s.courses[i]? with
  | none => rw [click_none s i h]; exact hinv
  | some c =>
    cases ha : c.approved
    · by_cases hm : missingPrerequisites s.courses (prerequisitesOf c) = []
      · rw [click_approve s i c h ha hm]
        exact blockedOK_toggle s i c c.code hinv h (fun _ => hm)
      · rw [(click_reject s i c h ha hm).1]
        have hview : (setBlocked i true s.courses).map Course.view = s.courses.map Course.view :=
          map_view_modifyCourse i _ _ (fun _ => rfl)
        intro d hd
        rw [missingPrerequisites_congr hview]
        rcases mem_modifyCourse hd with ⟨j, _, hj⟩ | ⟨ci, hci, rfl⟩
        · exact hinv d (List.getElem?_mem hj)
        · rw [h] at hci
          cases hci
          have hne : (missingPrerequisites s.courses (prerequisitesOf c)).isEmpty = false := by
            cases hl : missingPrerequisites s.courses (prerequisitesOf c) with
            | nil => exact absurd hl hm
            | cons x xs => rfl
          show true = (!c.approved && !(missingPrerequisites s.courses (prerequisitesOf c)).isEmpty)
          simp [ha, hne]
    · rw [click_unapprove s i c h ha]
      exact blockedOK_toggle s i c c.code hinv h (fun hf => by simp [ha] at hf)

theorem blockedOK_clicks (is : List Nat) (s : Page) (hinv : BlockedOK s.courses) :
    BlockedOK (clicks s is).courses := by
  induction is generalizing s with
  | nil => exact hinv
  | cons i is ih => exact ih (click s i) (blockedOK_click s i hinv)

/-! ## Unique codes -/

theorem uniqueCodes_index {cs : List Course} (hu : UniqueCodes cs) {i j : Nat} {a b : Course}
    (hi : cs[i]? = some a) (hj : cs[j]? = some b) (hab : a.code = b.code) : i = j := by
  have hn := List.nodup_iff_getElem?_ne_getElem?.mp hu
  have hli : i < cs.length := (List.getElem?_eq_some.mp hi).1
  have hlj : j < cs.length := (List.getElem?_eq_some.mp hj).1
  have hmi : (cs.map Course.code)[i]? = some a.code := by simp [hi]
  have hmj : (cs.map Course.code)[j]? = some b.code := by simp [hj]
  rcases Nat.lt_trichotomy i j with hlt | heq | hgt
  · exact absurd (by rw [hmi, hmj, hab]) (hn i j hlt (by simpa using hlj))
  · exact heq
  · exact absurd (by rw [hmi, hmj, hab]) (hn j i hgt (by simpa using hli))

theorem querySelector_of_mem {cs : List Course} (hu : UniqueCodes cs) {d : Course}
    (hd : d ∈ cs) : querySelector cs d.code = some d := by
  cases hq : querySelector cs d.code with
  | none =>
    have := List.find?_eq_none.mp hq d hd
    simp at this
  | some e =>
    have he : e ∈ cs := List.mem_of_find?_eq_some hq
    have hc : e.code = d.code := by simpa using List.find?_some hq
    rw [List.inj_on_of_nodup_map hu he hd hc]

theorem querySelector_some {cs : List Course} {r : String} {d : Course}
    (h : querySelector cs r = some d) : d ∈ cs ∧ d.code = r :=
  ⟨List.mem_of_find?_eq_some h, by simpa using List.find?_some h⟩

theorem querySelector_none {cs : List Course} {r : String}
    (h : ∀ d ∈ cs, d.code ≠ r) : querySelector cs r = none := by
  apply List.find?_eq_none.mpr
  intro d hd
  simpa using h d hd

/-- With unique codes the filter callback holds of `r` exactly when `r` names a course on
the page that is not approved. -/
theorem isMissing_iff {cs : List Course} (hu : UniqueCodes cs) (r : String) :
    isMissing cs r = true ↔ ∃ d ∈ cs, d.code = r ∧ d.approved = false := by
  constructor
  · intro h
    unfold isMissing at h
    cases hq : querySelector cs r with
    | none => simp [hq] at h
    | some d =>
      obtain ⟨hd, hc⟩ := querySelector_some hq
      exact ⟨d, hd, hc, by simpa [hq] using h⟩
  · rintro ⟨d, hd, rfl, ha⟩
    simp [isMissing, querySelector_of_mem hu hd, ha]

theorem missing_ne_nil_iff {cs : List Course} (hu : UniqueCodes cs) (c : Course) :
    (missingPrerequisites cs (prerequisitesOf c)).isEmpty = false ↔
      HasUnapprovedPrerequisite cs c := by
  unfold HasUnapprovedPrerequisite missingPrerequisites
  constructor
  · intro h
    cases hl : (prerequisitesOf c).filter (isMissing cs) with
    | nil => simp [hl] at h
    | cons x xs =>
      have hx : x ∈ (prerequisitesOf c).filter (isMissing cs) := by simp [hl]
      obtain ⟨hx1, hx2⟩ := List.mem_filter.mp hx
      exact ⟨x, hx1, (isMissing_iff hu x).mp hx2⟩
  · rintro ⟨r, hr, hd⟩
    have hx : r ∈ (prerequisitesOf c).filter (isMissing cs) :=
      List.mem_filter.mpr ⟨hr, (isMissing_iff hu r).mpr hd⟩
    cases hl : (prerequisitesOf c).filter (isMissing cs) with
    | nil => simp [hl] at hx
    | cons x xs => rfl

theorem blockedRule_of_blockedOK {cs : List Course} (hu : UniqueCodes cs)
    (h : BlockedOK cs) : BlockedRule cs := by
  intro c hc
  rw [h c hc, ← missing_ne_nil_iff hu c]
  cases c.approved <;> simp

/-! ## What a click never changes -/

theorem map_static_modifyCourse (i : Nat) (f : Course → Course) (l : List Course)
    (hf : ∀ c, (f c).static = c.static) :
    (modifyCourse i f l).map Course.static = l.map Course.static := by
  apply List.ext_getElem?
  intro j
  simp only [List.getElem?_map, getElem?_modifyCourse]
  split
  · cases l[j]? <;> simp [hf]
  · rfl

theorem map_static_update (cs l : List Course) :
    (l.map (updateCourse cs)).map Course.static = l.map Course.static := by
  rw [List.map_map]
  apply List.map_congr_left
  intro c _
  show (updateCourse cs c).static = c.static
  rw [updateCourse_eq]
  rfl

theorem static_toggle (code : String) (i : Nat) (s : Page) :
    (toggleCourseApproval code i s).courses.map Course.static =
      s.courses.map Course.static := by
  rw [toggle_courses, map_static_update]
  exact map_static_modifyCourse i _ _ (fun _ => rfl)

theorem static_click (s : Page) (i : Nat) :
    (click s i).courses.map Course.static = s.courses.map Course.static := by
  cases h : s.courses[i]? with
  | none => rw [click_none s i h]
  | some c =>
    cases ha : c.approved
    · by_cases hm : missingPrerequisites s.courses (prerequisitesOf c) = []
      · rw [click_approve s i c h ha hm]
        exact static_toggle c.code i s
      · rw [(click_reject s i c h ha hm).1]
        exact map_static_modifyCourse i _ _ (fun _ => rfl)
    · rw [click_unapprove s i c h ha]
      exact static_toggle c.code i s

theorem static_clicks (is : List Nat) (s : Page) :
    (clicks s is).courses.map Course.static = s.courses.map Course.static := by
  induction is generalizing s with
  | nil => rfl
  | cons i is ih => exact (ih (click s i)).trans (static_click s i)

theorem static_load (s : Page) :
    (loadApprovedCourses s).courses.map Course.static = s.courses.map Course.static := by
  rw [load_courses, map_static_update, List.map_map]
  rfl

theorem uniqueCodes_of_static {cs cs' : List Course}
    (h : cs'.map Course.static = cs.map Course.static) (hu : UniqueCodes cs) :
    UniqueCodes cs' := by
  have hc : cs'.map Course.code = cs.map Course.code := by
    have := congrArg (List.map Prod.fst) h
    simpa [List.map_map, Function.comp, Course.static] using this
  unfold UniqueCodes
  rw [hc]
  exact hu

/-! ## One element after a toggle -/

theorem approved_updateCourse (cs : List Course) (c : Course) :
    (updateCourse cs c).approved = c.approved := by
  rw [updateCourse_eq]

theorem static_updateCourse (cs : List Course) (c : Course) :
    (updateCourse cs c).static = c.static := by
  rw [updateCourse_eq]; rfl

theorem blocked_updateCourse_of_approved (cs : List Course) (c : Course)
    (h : c.approved = true) : (updateCourse cs c).blocked = c.blocked := by
  rw [updateCourse_eq]; simp [h]

theorem toggle_getElem? (code : String) (i j : Nat) (s : Page) :
    (toggleCourseApproval code i s).courses[j]? =
      (if i = j then s.courses[j]?.map toggleApproved else s.courses[j]?).map
        (updateCourse (modifyCourse i toggleApproved s.courses)) := by
  rw [toggle_courses, List.getElem?_map, getElem?_modifyCourse]

theorem toggle_getElem?_self (code : String) (i : Nat) (s : Page) (c : Course)
    (h : s.courses[i]? = some c) :
    (toggleCourseApproval code i s).courses[i]? =
      some (updateCourse (modifyCourse i toggleApproved s.courses) (toggleApproved c)) := by
  rw [toggle_getElem?]; simp [h]

theorem toggle_getElem?_other (code : String) (i j : Nat) (s : Page) (d : Course)
    (hij : j ≠ i) (h : s.courses[j]? = some d) :
    (toggleCourseApproval code i s).courses[j]? =
      some (updateCourse (modifyCourse i toggleApproved s.courses) d) := by
  have hne : ¬ i = j := fun e => hij e.symm
  rw [toggle_getElem?, if_neg hne, h]
  rfl

theorem mem_updatedApprovedList (l : List String) (code x : String) (b : Bool) :
    x ∈ updatedApprovedList l code b ↔ if x = code then b = true else x ∈ l := by
  unfold updatedApprovedList
  by_cases hx : x = code
  · subst hx
    cases b
    · simp
    · by_cases hc : x ∈ l <;> simp [hc]
  · cases b
    · simp [hx]
    · by_cases hc : code ∈ l <;> simp [hc, hx]

/-! ## Splitting on spaces -/

theorem splitOnSpace_ne_nil (l : List Char) : splitOnSpace l ≠ [] := by
  cases l with
  | nil => simp [splitOnSpace]
  | cons c cs =>
    unfold splitOnSpace
    split
    · simp
    · split <;> simp

theorem intercalate_cons_cons (sep x y : List Char) (ys : List (List Char)) :
    sep.intercalate (x :: y :: ys) = x ++ sep ++ sep.intercalate (y :: ys) := by
  simp [List.intercalate, List.intersperse]

/-- Joining the pieces with single spaces gives the string back. -/
theorem intercalate_splitOnSpace (l : List Char) :
    [' '].intercalate (splitOnSpace l) = l := by
  induction l with
  | nil => simp [splitOnSpace, List.intercalate]
  | cons c cs ih =>
    unfold splitOnSpace
    cases hs : splitOnSpace cs with
    | nil => exact absurd hs (splitOnSpace_ne_nil cs)
    | cons w ws =>
      rw [hs] at ih
      by_cases hc : c = ' '
      · simp only [hc, if_true]
        rw [intercalate_cons_cons, ih]
        rfl
      · simp only [hc, if_false]
        cases ws with
        | nil =>
          have hw : w = cs := by simpa [List.intercalate, List.intersperse] using ih
          simp [List.intercalate, List.intersperse, hw]
        | cons v vs =>
          rw [intercalate_cons_cons] at ih ⊢
          rw [← ih]
          simp

/-- No piece contains a space. -/
theorem no_space_in_splitOnSpace (l : List Char) :
    ∀ w ∈ splitOnSpace l, ' ' ∉ w := by
  induction l with
  | nil => simp [splitOnSpace]
  | cons c cs ih =>
    unfold splitOnSpace
    by_cases hc : c = ' '
    · simp only [hc, if_true]
      intro w hw
      rcases List.mem_cons.mp hw with rfl | hw
      · simp
      · exact ih w hw
    · simp only [hc, if_false]
      cases hs : splitOnSpace cs with
      | nil => exact absurd hs (splitOnSpace_ne_nil cs)
      | cons v vs =>
        rw [hs] at ih
        intro w hw
        rcases List.mem_cons.mp hw with rfl | hw
        · intro hmem
          rcases List.mem_cons.mp hmem with h | h
          · exact hc h.symm
          · exact ih v (List.mem_cons_self _ _) h
        · exact ih w (List.mem_cons_of_mem _ hw)

/-! ## The stored list along a run -/

theorem code_updateCourse (cs : List Course) (c : Course) :
    (updateCourse cs c).code = c.code := by
  rw [updateCourse_eq]

theorem contains_updatedApprovedList (l : List String) (code x : String) (b : Bool) :
    (updatedApprovedList l code b).contains x = if x = code then b else l.contains x := by
  rw [Bool.eq_iff_iff]
  have hmem := mem_updatedApprovedList l code x b
  by_cases hx : x = code
  · simpa [hx] using hmem
  · simpa [hx] using hmem

theorem storedOK_load (s : Page) : StoredOK (loadApprovedCourses s) := by
  intro c hc
  rw [load_courses] at hc
  obtain ⟨d, hd, rfl⟩ := List.mem_map.mp hc
  obtain ⟨e, _, rfl⟩ := List.mem_map.mp hd
  rw [approved_updateCourse, code_updateCourse, load_storage]

theorem storedOK_toggle (s : Page) (i : Nat) (ci : Course) (hu : UniqueCodes s.courses)
    (h : s.courses[i]? = some ci) (hst : StoredOK s) :
    StoredOK (toggleCourseApproval ci.code i s) := by
  intro c hc
  rw [toggle_storage ci.code i s ci h]
  rw [toggle_courses] at hc
  obtain ⟨d, hd, rfl⟩ := List.mem_map.mp hc
  rw [approved_updateCourse, code_updateCourse]
  show d.approved = (updatedApprovedList (readApproved s.storage) ci.code (!ci.approved)).contains d.code
  rw [contains_updatedApprovedList]
  rcases mem_modifyCourse hd with ⟨j, hji, hj⟩ | ⟨e, he, rfl⟩
  · have hne : d.code ≠ ci.code := fun hcode => hji (uniqueCodes_index hu hj h hcode)
    rw [if_neg hne]
    exact hst d (List.getElem?_mem hj)
  · rw [h] at he
    cases he
    simp [toggleApproved]

theorem storedOK_click (s : Page) (i : Nat) (hu : UniqueCodes s.courses) (hst : StoredOK s) :
    StoredOK (click s i) := by
  cases h : s.courses[i]? with
  | none => rw [click_none s i h]; exact hst
  | some c =>
    cases ha : c.approved
    · by_cases hm : missingPrerequisites s.courses (prerequisitesOf c) = []
      · rw [click_approve s i c h ha hm]
        exact storedOK_toggle s i c hu h hst
      · intro d hd
        rw [(click_reject s i c h ha hm).2]
        rw [(click_reject s i c h ha hm).1] at hd
        rcases mem_modifyCourse hd with ⟨j, _, hj⟩ | ⟨e, he, rfl⟩
        · exact hst d (List.getElem?_mem hj)
        · exact hst e (List.getElem?_mem he)
    · rw [click_unapprove s i c h ha]
      exact storedOK_toggle s i c hu h hst

theorem storedOK_clicks (is : List Nat) (s : Page) (hu : UniqueCodes s.courses)
    (hst : StoredOK s) : StoredOK (clicks s is) := by
  induction is generalizing s with
  | nil => exact hst
  | cons i is ih =>
    exact ih (click s i) (uniqueCodes_of_static (static_click s i) hu) (storedOK_click s i hu hst)

theorem uniqueCodes_reached (p : Page) (is : List Nat) (hu : UniqueCodes p.courses) :
    UniqueCodes (clicks (loadApprovedCourses p) is).courses :=
  uniqueCodes_of_static ((static_clicks is (loadApprovedCourses p)).trans (static_load p)) hu

theorem storedOK_reached (p : Page) (is : List Nat) (hu : UniqueCodes p.courses) :
    StoredOK (clicks (loadApprovedCourses p) is) :=
  storedOK_clicks is _ (uniqueCodes_of_static (static_load p) hu) (storedOK_load p)

/-- The approved flags that `loadApprovedCourses` sets depend only on the codes of the
page and on which codes the stored list contains. -/
theorem load_approved (p : Page) :
    (loadApprovedCourses p).courses.map Course.approved =
      p.courses.map (fun c => (readApproved p.storage).contains c.code) := by
  rw [load_courses, List.map_map, List.map_map]
  apply List.map_congr_left
  intro c _
  simp [approved_updateCourse]

theorem approved_of_storedOK (s : Page) (hst : StoredOK s) :
    s.courses.map Course.approved =
      s.courses.map (fun c => (readApproved s.storage).contains c.code) :=
  List.map_congr_left (fun c hc => hst c hc)

theorem toggle_getElem?_approved (code : String) (i j : Nat) (s : Page) :
    ((toggleCourseApproval code i s).courses[j]?).map Course.approved =
      (s.courses[j]?).map (fun c => if i = j then !c.approved else c.approved) := by
  rw [toggle_getElem?]
  by_cases hij : i = j
  · cases s.courses[j]? <;> simp [hij, approved_updateCourse, toggleApproved]
  · cases s.courses[j]? <;> simp [hij, approved_updateCourse]

theorem nodup_updatedApprovedList (l : List String) (code : String) (b : Bool)
    (h : l.Nodup) : (updatedApprovedList l code b).Nodup := by
  unfold updatedApprovedList
  cases b
  · exact h.filter _
  · by_cases hc : code ∈ l
    · simpa [hc] using h
    · have hcont : l.contains code = false := by
        rw [Bool.eq_false_iff]
        intro hcon
        exact hc (by simpa using hcon)
      simp only [if_true, hcont, Bool.false_eq_true, if_false]
      exact List.Nodup.append h (List.nodup_singleton code) (by simpa using hc)

theorem storage_click_cases (s : Page) (i : Nat) :
    (click s i).storage = s.storage ∨
      ∃ code b, (click s i).storage =
        some (updatedApprovedList (readApproved s.storage) code b) := by
  cases h : s.courses[i]? with
  | none => rw [click_none s i h]; exact Or.inl rfl
  | some c =>
    cases ha : c.approved
    · by_cases hm : missingPrerequisites s.courses (prerequisitesOf c) = []
      · rw [click_approve s i c h ha hm]
        exact Or.inr ⟨c.code, !c.approved, toggle_storage c.code i s c h⟩
      · exact Or.inl (click_reject s i c h ha hm).2
    · rw [click_unapprove s i c h ha]
      exact Or.inr ⟨c.code, !c.approved, toggle_storage c.code i s c h⟩

theorem nodup_storage_clicks (is : List Nat) (s : Page)
    (h : (readApproved s.storage).Nodup) : (readApproved (clicks s is).storage).Nodup := by
  induction is generalizing s with
  | nil => exact h
  | cons i is ih =>
    apply ih (click s i)
    rcases storage_click_cases s i with he | ⟨code, b, he⟩
    · rw [he]; exact h
    · rw [he]; exact nodup_updatedApprovedList _ code b h

/-! ## Timer callbacks -/

theorem fireTimer_storage (s : Page) (k : Nat) : (fireTimer s k).storage = s.storage := by
  unfold fireTimer
  cases h : s.timers[k]? with
  | none => rfl
  | some t =>
    rcases t with ⟨d, a⟩
    cases a <;> rfl

theorem fireTimer_courses (s : Page) (k : Nat) :
    (fireTimer s k).courses = s.courses ∨
      ∃ d i, s.timers[k]? = some (d, TimerAction.removeBlocked i) ∧
        (fireTimer s k).courses = setBlocked i false s.courses := by
  unfold fireTimer
  cases h : s.timers[k]? with
  | none => exact Or.inl rfl
  | some t =>
    rcases t with ⟨d, a⟩
    cases a with
    | removeBlocked i => exact Or.inr ⟨d, i, rfl, rfl⟩
    | hideError => exact Or.inl rfl

theorem map_view_setBlocked (i : Nat) (b : Bool) (cs : List Course) :
    (setBlocked i b cs).map Course.view = cs.map Course.view :=
  map_view_modifyCourse i _ _ (fun _ => rfl)

theorem map_static_setBlocked (i : Nat) (b : Bool) (cs : List Course) :
    (setBlocked i b cs).map Course.static = cs.map Course.static :=
  map_static_modifyCourse i _ _ (fun _ => rfl)

theorem view_fireTimer (s : Page) (k : Nat) :
    (fireTimer s k).courses.map Course.view = s.courses.map Course.view := by
  rcases fireTimer_courses s k with h | ⟨_, i, _, h⟩
  · rw [h]
  · rw [h, map_view_setBlocked]

theorem static_fireTimer (s : Page) (k : Nat) :
    (fireTimer s k).courses.map Course.static = s.courses.map Course.static := by
  rcases fireTimer_courses s k with h | ⟨_, i, _, h⟩
  · rw [h]
  · rw [h, map_static_setBlocked]

theorem approved_of_view {cs cs' : List Course}
    (h : cs'.map Course.view = cs.map Course.view) :
    cs'.map Course.approved = cs.map Course.approved := by
  have := congrArg (List.map Prod.snd) h
  simpa [List.map_map, Function.comp, Course.view] using this

/-! ## Courses without prerequisites -/

theorem noPrerequisites_iff (c : Course) : NoPrerequisites c ↔ prerequisitesOf c = [] := by
  unfold NoPrerequisites prerequisitesOf
  cases hp : c.prerequisites with
  | none => simp
  | some str =>
    by_cases hs : str = ""
    · simp [hs]
    · have hne : jsSplit str ≠ [] := by
        unfold jsSplit
        intro h0
        exact splitOnSpace_ne_nil str.data (List.map_eq_nil_iff.mp h0)
      simp [hs, hne]

theorem freeUnblocked_update (cs : List Course) (h : FreeUnblocked cs) :
    FreeUnblocked (cs.map (updateCourse cs)) := by
  intro c' hc' hp
  obtain ⟨c, hc, rfl⟩ := List.mem_map.mp hc'
  rw [prerequisitesOf_updateCourse] at hp
  rw [updateCourse_eq]
  cases ha : c.approved
  · simp [hp, missingPrerequisites_nil]
  · simpa [ha] using h c hc hp

theorem freeUnblocked_load (s : Page) (h : NoneBlocked s.courses) :
    FreeUnblocked (loadApprovedCourses s).courses := by
  rw [load_courses]
  apply freeUnblocked_update
  intro c hc _
  obtain ⟨d, hd, rfl⟩ := List.mem_map.mp hc
  exact h d hd

theorem freeUnblocked_click (s : Page) (i : Nat) (hinv : FreeUnblocked s.courses) :
    FreeUnblocked (click s i).courses := by
  have htoggle : ∀ code, FreeUnblocked (toggleCourseApproval code i s).courses := by
    intro code
    rw [toggle_courses]
    apply freeUnblocked_update
    intro d hd hp
    rcases mem_modifyCourse hd with ⟨j, _, hj⟩ | ⟨e, he, rfl⟩
    · exact hinv d (List.getElem?_mem hj) hp
    · exact hinv e (List.getElem?_mem he) hp
  cases h : s.courses[i]? with
  | none => rw [click_none s i h]; exact hinv
  | some c =>
    cases ha : c.approved
    · by_cases hm : missingPrerequisites s.courses (prerequisitesOf c) = []
      · rw [click_approve s i c h ha hm]
        exact htoggle c.code
      · rw [(click_reject s i c h ha hm).1]
        intro d hd hp
        rcases mem_modifyCourse hd with ⟨j, _, hj⟩ | ⟨e, he, rfl⟩
        · exact hinv d (List.getElem?_mem hj) hp
        · rw [h] at he
          cases he
          have hp' : prerequisitesOf c = [] := hp
          rw [hp'] at hm
          exact absurd (missingPrerequisites_nil s.courses) hm
    · rw [click_unapprove s i c h ha]
      exact htoggle c.code

theorem freeUnblocked_fireTimer (s : Page) (k : Nat) (hinv : FreeUnblocked s.courses) :
    FreeUnblocked (fireTimer s k).courses := by
  rcases fireTimer_courses s k with h | ⟨_, i, _, h⟩
  · rw [h]; exact hinv
  · rw [h]
    intro d hd hp
    rcases mem_modifyCourse hd with ⟨j, _, hj⟩ | ⟨e, he, rfl⟩
    · exact hinv d (List.getElem?_mem hj) hp
    · rfl

theorem freeUnblocked_run (es : List Event) (s : Page) (hinv : FreeUnblocked s.courses) :
    FreeUnblocked (run s es).courses := by
  induction es generalizing s with
  | nil => exact hinv
  | cons e es ih =>
    apply ih (step s e)
    cases e with
    | click i => exact freeUnblocked_click s i hinv
    | timer k => exact freeUnblocked_fireTimer s k hinv

/-! ## The rejection message -/

theorem forall₂_map_of_forall {R : String → String → Prop} (f : String → String)
    (l : List String) (h : ∀ r ∈ l, R r (f r)) : List.Forall₂ R l (l.map f) := by
  induction l with
  | nil => exact List.Forall₂.nil
  | cons x xs ih =>
    exact List.Forall₂.cons (h x (List.mem_cons_self _ _))
      (ih (fun r hr => h r (List.mem_cons_of_mem _ hr)))

theorem querySelector_cases (cs : List Course) (r : String) :
    (∃ d ∈ cs, d.code = r ∧ querySelector cs r = some d) ∨
      ((∀ d ∈ cs, d.code ≠ r) ∧ querySelector cs r = none) := by
  cases hq : querySelector cs r with
  | some d =>
    obtain ⟨hd, hc⟩ := querySelector_some hq
    exact Or.inl ⟨d, hd, hc, rfl⟩
  | none =>
    refine Or.inr ⟨?_, rfl⟩
    intro d hd hc
    have := List.find?_eq_none.mp hq d hd
    simp [hc] at this

theorem isDisplayName_missingNames (cs : List Course) (l : List String) :
    List.Forall₂ (IsDisplayName cs) l (missingNames cs l) := by
  unfold missingNames
  apply forall₂_map_of_forall
  intro r _
  rcases querySelector_cases cs r with ⟨d, hd, hc, hq⟩ | ⟨hno, hq⟩
  · exact Or.inl ⟨d, hd, hc, hq, by rw [hq]⟩
  · exact Or.inr ⟨hno, by rw [hq]⟩

/-- Every code that the filter of lines 38-41 keeps is found by the selector query, on a
course that is not approved. -/
theorem querySelector_of_mem_missing {cs : List Course} {l : List String} {r : String}
    (h : r ∈ missingPrerequisites cs l) :
    ∃ d ∈ cs, d.code = r ∧ d.approved = false ∧ querySelector cs r = some d := by
  have hmiss : isMissing cs r = true := (List.mem_filter.mp h).2
  unfold isMissing at hmiss
  cases hq : querySelector cs r with
  | none => simp [hq] at hmiss
  | some d =>
    obtain ⟨hd, hc⟩ := querySelector_some hq
    exact ⟨d, hd, hc, by simpa [hq] using hmiss, rfl⟩

/-! ## Prerequisite closure -/

theorem mem_setBlocked {i : Nat} {b : Bool} {cs : List Course} {c : Course}
    (h : c ∈ setBlocked i b cs) :
    ∃ c0 ∈ cs, c0.approved = c.approved ∧ c0.code = c.code ∧
      prerequisitesOf c0 = prerequisitesOf c := by
  rcases mem_modifyCourse h with ⟨j, _, hj⟩ | ⟨e, he, rfl⟩
  · exact ⟨c, List.getElem?_mem hj, rfl, rfl, rfl⟩
  · exact ⟨e, List.getElem?_mem he, rfl, rfl, rfl⟩

theorem closed_setBlocked (i : Nat) (b : Bool) (cs : List Course)
    (h : PrerequisiteClosed cs) : PrerequisiteClosed (setBlocked i b cs) := by
  intro c hc ha r hr d hd hcode
  obtain ⟨c0, hc0, ha0, _, hp0⟩ := mem_setBlocked hc
  obtain ⟨d0, hd0, hda0, hdc0, _⟩ := mem_setBlocked hd
  rw [← hda0]
  exact h c0 hc0 (ha0.trans ha) r (hp0 ▸ hr) d0 hd0 (hdc0.trans hcode)

theorem closed_map_update (X cs : List Course) (h : PrerequisiteClosed cs) :
    PrerequisiteClosed (cs.map (updateCourse X)) := by
  intro c hc ha r hr d hd hcode
  obtain ⟨c0, hc0, rfl⟩ := List.mem_map.mp hc
  obtain ⟨d0, hd0, rfl⟩ := List.mem_map.mp hd
  rw [approved_updateCourse] at ha ⊢
  rw [prerequisitesOf_updateCourse] at hr
  rw [code_updateCourse] at hcode
  exact h c0 hc0 ha r hr d0 hd0 hcode

theorem closed_approve (cs : List Course) (i : Nat) (ci : Course)
    (hu : UniqueCodes cs) (h : PrerequisiteClosed cs) (hi : cs[i]? = some ci)
    (ha : ci.approved = false)
    (hm : missingPrerequisites cs (prerequisitesOf ci) = []) :
    PrerequisiteClosed (modifyCourse i toggleApproved cs) := by
  intro c hc hca r hr d hd hcode
  rcases mem_modifyCourse hd with ⟨j, _, hj⟩ | ⟨e, he, rfl⟩
  · have hdmem : d ∈ cs := List.getElem?_mem hj
    rcases mem_modifyCourse hc with ⟨k, _, hk⟩ | ⟨e, he, rfl⟩
    · exact h c (List.getElem?_mem hk) hca r hr d hdmem hcode
    · rw [hi] at he
      cases he
      have hr' : r ∈ prerequisitesOf ci := hr
      have hnot : isMissing cs r ≠ true := by
        intro hmiss
        have : r ∈ missingPrerequisites cs (prerequisitesOf ci) :=
          List.mem_filter.mpr ⟨hr', hmiss⟩
        rw [hm] at this
        cases this
      cases hda : d.approved
      · exact absurd ((isMissing_iff hu r).mpr ⟨d, hdmem, hcode, hda⟩) hnot
      · rfl
  · rw [hi] at he
    cases he
    simp [toggleApproved, ha]

theorem closed_click_unapproved (s : Page) (i : Nat) (c : Course)
    (hu : UniqueCodes s.courses) (h : PrerequisiteClosed s.courses)
    (hi : s.courses[i]? = some c) (ha : c.approved = false) :
    PrerequisiteClosed (click s i).courses := by
  by_cases hm : missingPrerequisites s.courses (prerequisitesOf c) = []
  · rw [click_approve s i c hi ha hm]
    show PrerequisiteClosed (toggleCourseApproval c.code i s).courses
    rw [toggle_courses]
    exact closed_map_update _ _ (closed_approve s.courses i c hu h hi ha hm)
  · rw [(click_reject s i c hi ha hm).1]
    exact closed_setBlocked i true s.courses h

theorem closed_attempts (is : List Nat) (s : Page) (hu : UniqueCodes s.courses)
    (h : PrerequisiteClosed s.courses) (hatt : onlyApprovalAttempts s is = true) :
    PrerequisiteClosed (clicks s is).courses := by
  induction is generalizing s with
  | nil => exact h
  | cons i is ih =>
    unfold onlyApprovalAttempts at hatt
    cases hi : s.courses[i]? with
    | none => simp [hi] at hatt
    | some c =>
      simp only [hi, Bool.and_eq_true, Bool.not_eq_true'] at hatt
      exact ih (click s i) (uniqueCodes_of_static (static_click s i) hu)
        (closed_click_unapproved s i c hu h hi hatt.1) hatt.2

theorem closed_fireTimer (s : Page) (k : Nat) (h : PrerequisiteClosed s.courses) :
    PrerequisiteClosed (fireTimer s k).courses := by
  rcases fireTimer_courses s k with he | ⟨_, i, _, he⟩
  · rw [he]; exact h
  · rw [he]; exact closed_setBlocked i false s.courses h

/-! ## Prerequisite cycles -/

theorem exists_of_map_eq {β : Type} (f : Course → β) {cs cs' : List Course}
    (h : cs'.map f = cs.map f) {c' : Course} (hc : c' ∈ cs') : ∃ c ∈ cs, f c = f c' := by
  have hmem : f c' ∈ cs.map f := h ▸ List.mem_map_of_mem f hc
  obtain ⟨c, hc0, he⟩ := List.mem_map.mp hmem
  exact ⟨c, hc0, he⟩

theorem prerequisitesOf_of_static {c c' : Course} (h : c.static = c'.static) :
    c.code = c'.code ∧ prerequisitesOf c = prerequisitesOf c' := by
  rcases c with ⟨a1, a2, a3, a4, a5⟩
  rcases c' with ⟨b1, b2, b3, b4, b5⟩
  simp only [Course.static, Prod.mk.injEq] at h
  obtain ⟨h1, _, h3⟩ := h
  subst h1 h3
  exact ⟨rfl, rfl⟩

theorem cycleSet_of_static {cs cs' : List Course} (S : List String)
    (h : cs'.map Course.static = cs.map Course.static) (hS : CycleSet cs S) :
    CycleSet cs' S := by
  intro c' hc' hcode
  obtain ⟨c, hc, hst⟩ := exists_of_map_eq Course.static h hc'
  obtain ⟨hcc, hpp⟩ := prerequisitesOf_of_static hst
  obtain ⟨r, hr, hrS, d, hd, hdr⟩ := hS c hc (hcc ▸ hcode)
  obtain ⟨d', hd', hst'⟩ := exists_of_map_eq Course.static h.symm hd
  exact ⟨r, hpp ▸ hr, hrS, d', hd', (prerequisitesOf_of_static hst').1.trans hdr⟩

theorem cycle_missing (cs : List Course) (S : List String) (hS : CycleSet cs S)
    (h0 : ∀ c ∈ cs, c.code ∈ S → c.approved = false) (c : Course) (hc : c ∈ cs)
    (hcode : c.code ∈ S) : missingPrerequisites cs (prerequisitesOf c) ≠ [] := by
  obtain ⟨r, hr, hrS, d, hd, hdr⟩ := hS c hc hcode
  have hmiss : isMissing cs r = true := by
    rcases querySelector_cases cs r with ⟨e, he, hec, hq⟩ | ⟨hno, _⟩
    · have hea : e.approved = false := h0 e he (hec ▸ hrS)
      simp [isMissing, hq, hea]
    · exact absurd hdr (hno d hd)
  intro hnil
  have : r ∈ missingPrerequisites cs (prerequisitesOf c) :=
    List.mem_filter.mpr ⟨hr, hmiss⟩
  rw [hnil] at this
  cases this

theorem cycle_unapproved_click (s : Page) (S : List String) (i : Nat)
    (hS : CycleSet s.courses S)
    (h0 : ∀ c ∈ s.courses, c.code ∈ S → c.approved = false) :
    ∀ c ∈ (click s i).courses, c.code ∈ S → c.approved = false := by
  have hview : ∀ cs' : List Course, cs'.map Course.view = s.courses.map Course.view →
      ∀ c ∈ cs', c.code ∈ S → c.approved = false := by
    intro cs' hv c hc hcode
    obtain ⟨c0, hc0, he⟩ := exists_of_map_eq Course.view hv hc
    simp only [Course.view, Prod.mk.injEq] at he
    rw [← he.2]
    exact h0 c0 hc0 (he.1 ▸ hcode)
  have htoggle : ∀ ci, s.courses[i]? = some ci → ci.code ∉ S →
      ∀ c ∈ (toggleCourseApproval ci.code i s).courses, c.code ∈ S → c.approved = false := by
    intro ci hi hnot c hc hcode
    rw [toggle_courses] at hc
    obtain ⟨c1, hc1, rfl⟩ := List.mem_map.mp hc
    rw [code_updateCourse] at hcode
    rw [approved_updateCourse]
    rcases mem_modifyCourse hc1 with ⟨j, _, hj⟩ | ⟨e, he, rfl⟩
    · exact h0 c1 (List.getElem?_mem hj) hcode
    · rw [hi] at he
      cases he
      exact absurd hcode hnot
  cases hi : s.courses[i]? with
  | none => rw [click_none s i hi]; exact h0
  | some ci =>
    by_cases hin : ci.code ∈ S
    · have ha : ci.approved = false := h0 ci (List.getElem?_mem hi) hin
      have hm := cycle_missing s.courses S hS h0 ci (List.getElem?_mem hi) hin
      rw [(click_reject s i ci hi ha hm).1]
      exact hview _ (map_view_setBlocked i true s.courses)
    · cases ha : ci.approved
      · by_cases hm : missingPrerequisites s.courses (prerequisitesOf ci) = []
        · rw [click_approve s i ci hi ha hm]
          exact htoggle ci hi hin
        · rw [(click_reject s i ci hi ha hm).1]
          exact hview _ (map_view_setBlocked i true s.courses)
      · rw [click_unapprove s i ci hi ha]
        exact htoggle ci hi hin

theorem cycle_unapproved_clicks (S : List String) (is : List Nat) (s : Page)
    (hS : CycleSet s.courses S)
    (h0 : ∀ c ∈ s.courses, c.code ∈ S → c.approved = false) :
    CycleSet (clicks s is).courses S ∧
      ∀ c ∈ (clicks s is).courses, c.code ∈ S → c.approved = false := by
  induction is generalizing s with
  | nil => exact ⟨hS, h0⟩
  | cons i is ih =>
    exact ih (click s i) (cycleSet_of_static S (static_click s i) hS)
      (cycle_unapproved_click s S i hS h0)

/-! ## The pulse after a rejection -/

theorem rejects_iff (s : Page) (i : Nat) :
    rejects s i = true ↔ ∃ c, s.courses[i]? = some c ∧ c.approved = false ∧
      missingPrerequisites s.courses (prerequisitesOf c) ≠ [] := by
  unfold rejects
  cases h : s.courses[i]? with
  | none => simp
  | some c =>
    simp only [Bool.and_eq_true, Bool.not_eq_true', decide_eq_true_eq, Option.some.injEq,
      exists_eq_left', gt_iff_lt, List.length_pos]

theorem click_reject_timers (s : Page) (i : Nat) (c : Course)
    (h : s.courses[i]? = some c) (ha : c.approved = false)
    (hm : missingPrerequisites s.courses (prerequisitesOf c) ≠ []) :
    (click s i).timers =
      s.timers ++ [(5000, TimerAction.hideError), (1000, TimerAction.removeBlocked i)] := by
  have hlen : 0 < (missingPrerequisites s.courses (prerequisitesOf c)).length :=
    List.length_pos.mpr hm
  simp [click, h, ha, tryApproveCourse, hlen, showErrorMessage]

theorem getElem?_setBlocked (i j : Nat) (b : Bool) (cs : List Course) :
    (setBlocked i b cs)[j]? =
      if i = j then cs[j]?.map (fun c => { c with blocked := b }) else cs[j]? :=
  getElem?_modifyCourse i j _ cs

/-- Timer callbacks leave an element as it is, up to its blocked flag. -/
theorem fireTimer_getElem? (s : Page) (k i : Nat) (c : Course) (b : Bool)
    (h : s.courses[i]? = some { c with blocked := b }) :
    ∃ b', (fireTimer s k).courses[i]? = some { c with blocked := b' } := by
  rcases fireTimer_courses s k with he | ⟨_, j, _, he⟩
  · exact ⟨b, by rw [he]; exact h⟩
  · rw [he, getElem?_setBlocked]
    by_cases hji : j = i
    · exact ⟨false, by simp [hji, h]⟩
    · exact ⟨b, by simp [hji, h]⟩

theorem fireTimers_getElem? (ks : List Nat) (s : Page) (i : Nat) (c : Course) (b : Bool)
    (h : s.courses[i]? = some { c with blocked := b }) :
    ∃ b', (fireTimers s ks).courses[i]? = some { c with blocked := b' } := by
  induction ks generalizing s b with
  | nil => exact ⟨b, h⟩
  | cons k ks ih =>
    obtain ⟨b1, h1⟩ := fireTimer_getElem? s k i c b h
    exact ih (fireTimer s k) b1 h1

theorem view_fireTimers (ks : List Nat) (s : Page) :
    (fireTimers s ks).courses.map Course.view = s.courses.map Course.view := by
  induction ks generalizing s with
  | nil => rfl
  | cons k ks ih => exact (ih (fireTimer s k)).trans (view_fireTimer s k)

theorem storage_fireTimers (ks : List Nat) (s : Page) :
    (fireTimers s ks).storage = s.storage := by
  induction ks generalizing s with
  | nil => rfl
  | cons k ks ih => exact (ih (fireTimer s k)).trans (fireTimer_storage s k)

/-- A run of `updateAllCoursesBlockedState` leaves a page on which a further run changes
nothing. -/
theorem updateAll_idempotent (s : Page) :
    updateAllCoursesBlockedState (updateAllCoursesBlockedState s) =
      updateAllCoursesBlockedState s := by
  have hc : (updateAllCoursesBlockedState (updateAllCoursesBlockedState s)).courses =
      (updateAllCoursesBlockedState s).courses := by
    rw [updateAll_courses (updateAllCoursesBlockedState s), updateAll_courses s,
      updateCourse_congr (map_view_update s.courses s.courses), List.map_map]
    apply List.map_congr_left
    intro c _
    show updateCourse s.courses (updateCourse s.courses c) = updateCourse s.courses c
    rw [updateCourse_eq s.courses (updateCourse s.courses c), prerequisitesOf_updateCourse,
      approved_updateCourse]
    rw [updateCourse_eq]
    cases c.approved <;> simp
  show ({ updateAllCoursesBlockedState s with
    courses := (List.range (updateAllCoursesBlockedState s).courses.length).foldl
      updateBlockedStep (updateAllCoursesBlockedState s).courses } : Page) = _
  have hc' : (List.range (updateAllCoursesBlockedState s).courses.length).foldl
      updateBlockedStep (updateAllCoursesBlockedState s).courses =
      (updateAllCoursesBlockedState s).courses := hc
  rw [hc']

/-! ## Properties of the page -/

/-- C2. Rejection is atomic.  In every state, a click on an unapproved course for which
`tryApproveCourse` finds a missing prerequisite leaves every element as it was except that
the clicked one now carries the blocked flag, so every approved flag is as before, and it
leaves the stored list untouched (the error text and the two pending callbacks that the
rejection also sets are presentation, outside the courses and the store).  In particular, with `A` (no prerequisites) and `B`
(prerequisite `A`) both unapproved, a click on `B` finds `missing = [A]` and leaves `B`
blocked and not approved. -/
theorem rejection_is_atomic :
    (∀ (s : Page) (i : Nat) (c : Course),
      s.courses[i]? = some c → c.approved = false →
      missingPrerequisites s.courses (prerequisitesOf c) ≠ [] →
        (click s i).courses = s.courses.set i { c with blocked := true } ∧
        (click s i).courses.map Course.approved = s.courses.map Course.approved ∧
        (click s i).storage = s.storage) ∧
    (∀ (s : Page) (a b : Course),
      s.courses = [a, b] → a.code = "A" → b.code = "B" →
      prerequisitesOf a = [] → prerequisitesOf b = ["A"] →
      a.approved = false → b.approved = false →
        missingPrerequisites s.courses (prerequisitesOf b) = ["A"] ∧
        (click s 1).courses = [a, { b with blocked := true, approved := false }] ∧
        (click s 1).storage = s.storage) := by
  have general : ∀ (s : Page) (i : Nat) (c : Course),
      s.courses[i]? = some c → c.approved = false →
      missingPrerequisites s.courses (prerequisitesOf c) ≠ [] →
        (click s i).courses = s.courses.set i { c with blocked := true } ∧
        (click s i).courses.map Course.approved = s.courses.map Course.approved ∧
        (click s i).storage = s.storage := by
    intro s i c h ha hm
    obtain ⟨hc, hs⟩ := click_reject s i c h ha hm
    have hset : setBlocked i true s.courses = s.courses.set i { c with blocked := true } := by
      simp [setBlocked, modifyCourse, h]
    refine ⟨hc.trans hset, ?_, hs⟩
    rw [hc]
    apply List.ext_getElem?
    intro j
    simp only [setBlocked, List.getElem?_map, getElem?_modifyCourse]
    split
    · cases s.courses[j]? <;> rfl
    · rfl
  refine ⟨general, ?_⟩
  intro s a b hs hA hB _ hpb ha hb
  have hmiss : missingPrerequisites s.courses (prerequisitesOf b) = ["A"] := by
    simp [hs, hpb, missingPrerequisites, isMissing, querySelector, hA, ha]
  obtain ⟨h1, _, h3⟩ := general s 1 b (by simp [hs]) hb (by simp [hmiss])
  refine ⟨hmiss, ?_, h3⟩
  rw [h1, hs, ← hb]
  rfl

theorem rejection_is_atomic_witness :
    (pageAB.courses[1]? =
        some ⟨"B", "Calculo", some "A", false, false⟩ ∧
      missingPrerequisites pageAB.courses
        (prerequisitesOf ⟨"B", "Calculo", some "A", false, false⟩) ≠ [] ∧
      (click pageAB 1).courses =
        pageAB.courses.set 1 ⟨"B", "Calculo", some "A", false, true⟩ ∧
      (click pageAB 1).courses.map Course.approved = pageAB.courses.map Course.approved ∧
      (click pageAB 1).storage = pageAB.storage) ∧
    (missingPrerequisites pageAB.courses
        (prerequisitesOf ⟨"B", "Calculo", some "A", false, false⟩) = ["A"] ∧
      (click pageAB 1).courses =
        [⟨"A", "Algebra", none, false, false⟩, ⟨"B", "Calculo", some "A", false, true⟩] ∧
      (click pageAB 1).storage = pageAB.storage) :=
  ⟨⟨by decide, by decide,
      rejection_is_atomic.1 pageAB 1 ⟨"B", "Calculo", some "A", false, false⟩
        (by decide) (by decide) (by decide)⟩,
    rejection_is_atomic.2 pageAB ⟨"A", "Algebra", none, false, false⟩
      ⟨"B", "Calculo", some "A", false, false⟩
      (by decide) (by decide) (by decide) (by decide) (by decide) (by decide) (by decide)⟩

/-- C4. Unapproval is unconditional and does not cascade.  In every state, a click on an
approved course is not rejected and runs `toggleCourseApproval`: no error message and no
timer is set, the course loses the approved flag, its code is absent from the stored list
afterwards, and every other course keeps its approved flag, whatever its prerequisites
are; uniqueness of the codes is not needed. -/
theorem unapprove_unconditional (s : Page) (i : Nat) (c : Course)
    (h : s.courses[i]? = some c) (ha : c.approved = true) :
    rejects s i = false ∧
    click s i = toggleCourseApproval c.code i s ∧
    (click s i).timers = s.timers ∧ (click s i).errorText = s.errorText ∧
    (∃ c', (click s i).courses[i]? = some c' ∧ c'.static = c.static ∧ c'.approved = false) ∧
    c.code ∉ readApproved (click s i).storage ∧
    ∀ (j : Nat) (d : Course), j ≠ i → s.courses[j]? = some d →
      ∃ d', (click s i).courses[j]? = some d' ∧ d'.static = d.static ∧
        d'.approved = d.approved := by
  have hc := click_unapprove s i c h ha
  refine ⟨by simp [rejects, h, ha], hc, by rw [hc]; rfl, by rw [hc]; rfl, ?_, ?_, ?_⟩
  · rw [hc]
    refine ⟨_, toggle_getElem?_self c.code i s c h, ?_, ?_⟩
    · rw [static_updateCourse]; rfl
    · rw [approved_updateCourse]; simp [toggleApproved, ha]
  · rw [hc, toggle_storage c.code i s c h]
    simp [readApproved, mem_updatedApprovedList, ha]
  · intro j d hji hd
    rw [hc]
    exact ⟨_, toggle_getElem?_other c.code i j s d hji hd, static_updateCourse _ _,
      approved_updateCourse _ _⟩

theorem unapprove_unconditional_witness :
    (clicks pageAB [0, 1]).courses[0]? = some ⟨"A", "Algebra", none, true, false⟩ ∧
    rejects (clicks pageAB [0, 1]) 0 = false ∧
    click (clicks pageAB [0, 1]) 0 = toggleCourseApproval "A" 0 (clicks pageAB [0, 1]) ∧
    (click (clicks pageAB [0, 1]) 0).timers = (clicks pageAB [0, 1]).timers ∧
    (click (clicks pageAB [0, 1]) 0).errorText = (clicks pageAB [0, 1]).errorText ∧
    (∃ c', (click (clicks pageAB [0, 1]) 0).courses[0]? = some c' ∧
      c'.static = ("A", "Algebra", none) ∧ c'.approved = false) ∧
    "A" ∉ readApproved (click (clicks pageAB [0, 1]) 0).storage ∧
    ∀ (j : Nat) (d : Course), j ≠ 0 → (clicks pageAB [0, 1]).courses[j]? = some d →
      ∃ d', (click (clicks pageAB [0, 1]) 0).courses[j]? = some d' ∧ d'.static = d.static ∧
        d'.approved = d.approved :=
  ⟨by decide,
    unapprove_unconditional (clicks pageAB [0, 1]) 0 ⟨"A", "Algebra", none, true, false⟩
      (by decide) (by decide)⟩

/-- C6, as stated, fails: after `A` and then `B` were approved on the two-course page,
a click on `A` leaves `A` unapproved and `B` approved, and `B` does not carry the blocked
flag although its prerequisite `A` is no longer approved. -/
theorem unapprove_leaves_dependent_unblocked :
    (clicks (loadApprovedCourses pageAB) [0, 1]).courses =
      [⟨"A", "Algebra", none, true, false⟩, ⟨"B", "Calculo", some "A", true, false⟩] ∧
    (click (clicks (loadApprovedCourses pageAB) [0, 1]) 0).courses =
      [⟨"A", "Algebra", none, false, false⟩, ⟨"B", "Calculo", some "A", true, false⟩] ∧
    ¬ (∃ b, (click (clicks (loadApprovedCourses pageAB) [0, 1]) 0).courses[1]? = some b ∧
        b.blocked = true) := by
  decide

/-- C6, amended.  With `A` (no prerequisites) and `B` (prerequisite `A`) both approved, a
click on `A` makes `A` unapproved and not blocked and removes `A` from the stored list,
while `B` is left exactly as it was: it remains approved and its blocked flag is not
recomputed.  In a state reached from `loadApprovedCourses` by clicks on a page without
blocked flags that flag is off, before and after the click. -/
theorem unapprove_leaves_approved_dependent :
    (∀ (s : Page) (a b : Course),
      s.courses = [a, b] → a.code = "A" → b.code = "B" →
      prerequisitesOf a = [] → prerequisitesOf b = ["A"] →
      a.approved = true → b.approved = true →
        (click s 0).courses = [{ a with approved := false, blocked := false }, b] ∧
        "A" ∉ readApproved (click s 0).storage) ∧
    (∀ (p : Page) (is : List Nat) (a b : Course),
      NoneBlocked p.courses →
      (clicks (loadApprovedCourses p) is).courses = [a, b] → a.code = "A" → b.code = "B" →
      prerequisitesOf a = [] → prerequisitesOf b = ["A"] →
      a.approved = true → b.approved = true →
        b.blocked = false ∧
        (click (clicks (loadApprovedCourses p) is) 0).courses =
          [{ a with approved := false, blocked := false }, b]) := by
  have general : ∀ (s : Page) (a b : Course),
      s.courses = [a, b] → a.code = "A" → b.code = "B" →
      prerequisitesOf a = [] → prerequisitesOf b = ["A"] →
      a.approved = true → b.approved = true →
        (click s 0).courses = [{ a with approved := false, blocked := false }, b] ∧
        "A" ∉ readApproved (click s 0).storage := by
    intro s a b hs hA _ hpa _ ha hb
    have h0 : s.courses[0]? = some a := by simp [hs]
    rw [click_unapprove s 0 a h0 ha]
    constructor
    · rw [toggle_courses, hs]
      show [updateCourse [toggleApproved a, b] (toggleApproved a),
        updateCourse [toggleApproved a, b] b] = _
      have hpa' : prerequisitesOf (toggleApproved a) = [] := hpa
      rw [updateCourse_eq, updateCourse_eq, hpa']
      rcases b with ⟨bc, bn, bp, ba, bb⟩
      simp only at hb
      subst hb
      simp [toggleApproved, ha, missingPrerequisites_nil]
    · rw [toggle_storage a.code 0 s a h0, hA]
      simp [readApproved, mem_updatedApprovedList, ha]
  refine ⟨general, ?_⟩
  intro p is a b hnb hs hA hB hpa hpb ha hb
  refine ⟨?_, (general _ a b hs hA hB hpa hpb ha hb).1⟩
  have hinv := blockedOK_clicks is _ (blockedOK_load p hnb)
  have := hinv b (by rw [hs]; simp)
  simpa [hb] using this

theorem unapprove_leaves_approved_dependent_witness :
    ((click (clicks pageAB [0, 1]) 0).courses =
        [⟨"A", "Algebra", none, false, false⟩, ⟨"B", "Calculo", some "A", true, false⟩] ∧
      "A" ∉ readApproved (click (clicks pageAB [0, 1]) 0).storage) ∧
    (NoneBlocked pageAB.courses ∧
      (clicks (loadApprovedCourses pageAB) [0, 1]).courses =
        [⟨"A", "Algebra", none, true, false⟩, ⟨"B", "Calculo", some "A", true, false⟩] ∧
      (⟨"B", "Calculo", some "A", true, false⟩ : Course).blocked = false ∧
      (click (clicks (loadApprovedCourses pageAB) [0, 1]) 0).courses =
        [⟨"A", "Algebra", none, false, false⟩, ⟨"B", "Calculo", some "A", true, false⟩]) :=
  ⟨unapprove_leaves_approved_dependent.1 (clicks pageAB [0, 1])
      ⟨"A", "Algebra", none, true, false⟩ ⟨"B", "Calculo", some "A", true, false⟩
      (by decide) (by decide) (by decide) (by decide) (by decide) (by decide) (by decide),
    by decide, by decide,
    unapprove_leaves_approved_dependent.2 pageAB [0, 1]
      ⟨"A", "Algebra", none, true, false⟩ ⟨"B", "Calculo", some "A", true, false⟩
      (by decide) (by decide) (by decide) (by decide) (by decide) (by decide) (by decide)
      (by decide)⟩

/-- C8. Persisted state round-trips.  On a page with unique codes, in every state reached
from `loadApprovedCourses` by any sequence of clicks a course is approved if and only if
its code is in the stored list.  Hence `loadApprovedCourses` on a fresh copy of the page
(the same courses, whatever classes they carry) whose stored list has the same members,
in any order, gives every course the approved flag it has now. -/
theorem stored_list_round_trips (p : Page) (is : List Nat) (hu : UniqueCodes p.courses) :
    (∀ c ∈ (clicks (loadApprovedCourses p) is).courses,
      (c.approved = true ↔
        c.code ∈ readApproved (clicks (loadApprovedCourses p) is).storage)) ∧
    (loadApprovedCourses
        { p with storage := (clicks (loadApprovedCourses p) is).storage }).courses.map
          Course.approved =
      (clicks (loadApprovedCourses p) is).courses.map Course.approved ∧
    (∀ fresh : Page, fresh.courses.map Course.static = p.courses.map Course.static →
      (∀ x, x ∈ readApproved fresh.storage ↔
        x ∈ readApproved (clicks (loadApprovedCourses p) is).storage) →
      (loadApprovedCourses fresh).courses.map Course.approved =
        (clicks (loadApprovedCourses p) is).courses.map Course.approved) := by
  have hst := storedOK_reached p is hu
  have hstatic := (static_clicks is (loadApprovedCourses p)).trans (static_load p)
  have key : ∀ fresh : Page, fresh.courses.map Course.static = p.courses.map Course.static →
      (∀ x, x ∈ readApproved fresh.storage ↔
        x ∈ readApproved (clicks (loadApprovedCourses p) is).storage) →
      (loadApprovedCourses fresh).courses.map Course.approved =
        (clicks (loadApprovedCourses p) is).courses.map Course.approved := by
    intro fresh hf hmem
    rw [load_approved, approved_of_storedOK _ hst]
    have hcontains : ∀ x, (readApproved fresh.storage).contains x =
        (readApproved (clicks (loadApprovedCourses p) is).storage).contains x := by
      intro x
      rw [Bool.eq_iff_iff]
      simpa using hmem x
    have hcodes : fresh.courses.map Course.code =
        (clicks (loadApprovedCourses p) is).courses.map Course.code := by
      have := congrArg (List.map Prod.fst) (hf.trans hstatic.symm)
      simpa [List.map_map, Function.comp, Course.static] using this
    have h1 : ∀ (l : List String) (cs : List Course),
        cs.map (fun c => l.contains c.code) = (cs.map Course.code).map (fun x => l.contains x) := by
      intro l cs
      rw [List.map_map]
      rfl
    rw [h1, h1, hcodes]
    exact List.map_congr_left (fun x _ => hcontains x)
  refine ⟨?_, key _ rfl (fun _ => Iff.rfl), key⟩
  intro c hc
  rw [hst c hc]
  simp

theorem stored_list_round_trips_witness :
    UniqueCodes pageAB.courses ∧
    (clicks (loadApprovedCourses pageAB) [0, 1, 0]).courses.map Course.approved =
      [false, true] ∧
    (clicks (loadApprovedCourses pageAB) [0, 1, 0]).storage = some ["B"] ∧
    (loadApprovedCourses
        { pageAB with storage := (clicks (loadApprovedCourses pageAB) [0, 1, 0]).storage }).courses.map
          Course.approved =
      (clicks (loadApprovedCourses pageAB) [0, 1, 0]).courses.map Course.approved :=
  ⟨by decide, by decide, by decide,
    (stored_list_round_trips pageAB [0, 1, 0] (by decide)).2.1⟩

/-- C9. On a page with unique codes, in every state reached from `loadApprovedCourses`
by clicks, for every unapproved course without a missing prerequisite: a click on it
approves it, and a second click on it right afterwards leaves the approved flag of every
course and the stored list of approved codes (same codes, same order) as they were before
the first click. -/
theorem approve_then_unapprove_restores (p : Page) (is : List Nat) (i : Nat) (c : Course)
    (hu : UniqueCodes p.courses)
    (h : (clicks (loadApprovedCourses p) is).courses[i]? = some c)
    (ha : c.approved = false)
    (hm : missingPrerequisites (clicks (loadApprovedCourses p) is).courses
      (prerequisitesOf c) = []) :
    (∃ c1, (click (clicks (loadApprovedCourses p) is) i).courses[i]? = some c1 ∧
      c1.approved = true) ∧
    (click (click (clicks (loadApprovedCourses p) is) i) i).courses.map Course.approved =
      (clicks (loadApprovedCourses p) is).courses.map Course.approved ∧
    readApproved (click (click (clicks (loadApprovedCourses p) is) i) i).storage =
      readApproved (clicks (loadApprovedCourses p) is).storage := by
  generalize hs : clicks (loadApprovedCourses p) is = s at h hm ⊢
  have hst : StoredOK s := hs ▸ storedOK_reached p is hu
  have hnot : c.code ∉ readApproved s.storage := by
    have := hst c (List.getElem?_mem h)
    rw [ha] at this
    intro hmem
    simp [hmem] at this
  have hc1 : click s i = hideErrorMessage (toggleCourseApproval c.code i s) :=
    click_approve s i c h ha hm
  have h1 : (click s i).courses[i]? =
      some (updateCourse (modifyCourse i toggleApproved s.courses) (toggleApproved c)) := by
    rw [hc1]; exact toggle_getElem?_self c.code i s c h
  have ha1 : (updateCourse (modifyCourse i toggleApproved s.courses) (toggleApproved c)).approved
      = true := by
    rw [approved_updateCourse]; simp [toggleApproved, ha]
  have hc2 := click_unapprove (click s i) i _ h1 ha1
  rw [code_updateCourse] at hc2
  have hcode : (toggleApproved c).code = c.code := rfl
  rw [hcode] at hc2
  refine ⟨⟨_, h1, ha1⟩, ?_, ?_⟩
  · apply List.ext_getElem?
    intro j
    rw [List.getElem?_map, List.getElem?_map, hc2, toggle_getElem?_approved, hc1]
    show Option.map _ ((toggleCourseApproval c.code i s).courses[j]?) = _
    have h2 := toggle_getElem?_approved c.code i j s
    have hfac : ∀ o : Option Course,
        o.map (fun c => if i = j then !c.approved else c.approved) =
          (o.map Course.approved).map (fun b => if i = j then !b else b) := by
      intro o; cases o <;> rfl
    rw [hfac, h2]
    cases s.courses[j]? with
    | none => rfl
    | some d => by_cases hij : i = j <;> simp [hij]
  · rw [hc2, toggle_storage c.code i (click s i) _ h1, ha1, hc1]
    show readApproved (some (updatedApprovedList
      (readApproved (toggleCourseApproval c.code i s).storage) c.code (!true))) = _
    rw [toggle_storage c.code i s c h, ha]
    have hfilter : ∀ l : List String, c.code ∉ l →
        (l ++ [c.code]).filter (fun x => x != c.code) = l := by
      intro l hl
      rw [List.filter_append]
      have : l.filter (fun x => x != c.code) = l := by
        apply List.filter_eq_self.mpr
        intro x hx
        have : x ≠ c.code := fun e => hl (e ▸ hx)
        simpa using this
      simp [this]
    simp only [readApproved, updatedApprovedList, Option.getD_some, Bool.not_false,
      Bool.not_true, if_true]
    have hcont : (s.storage.getD []).contains c.code = false := by
      rw [Bool.eq_false_iff]
      intro hcon
      exact hnot (by simpa [readApproved] using hcon)
    simp only [hcont]
    exact hfilter _ hnot

theorem approve_then_unapprove_restores_witness :
    UniqueCodes pageAB.courses ∧
    (∃ c1, (click (clicks (loadApprovedCourses pageAB) [0]) 1).courses[1]? = some c1 ∧
      c1.approved = true) ∧
    (click (click (clicks (loadApprovedCourses pageAB) [0]) 1) 1).courses.map Course.approved =
      (clicks (loadApprovedCourses pageAB) [0]).courses.map Course.approved ∧
    readApproved (click (click (clicks (loadApprovedCourses pageAB) [0]) 1) 1).storage =
      readApproved (clicks (loadApprovedCourses pageAB) [0]).storage :=
  ⟨by decide,
    approve_then_unapprove_restores pageAB [0] 1 ⟨"B", "Calculo", some "A", false, false⟩
      (by decide) (by decide) (by decide) (by decide)⟩

/-- C10. The stored list has no duplicates.  For every stored list without duplicates
(an absent key reads as the empty list), every code and either value of `isApproved`, the
list written by `updateApprovedCoursesInStorage` has no duplicates, contains the code
exactly once when `isApproved` is true and not at all when it is false, and keeps every
other code in its relative order.  So, starting from an absent key or a duplicate-free
list, the stored list is duplicate-free after any sequence of clicks. -/
theorem stored_list_nodup :
    (∀ (s : Page) (code : String) (b : Bool), (readApproved s.storage).Nodup →
      (updateApprovedCoursesInStorage code b s).storage =
        some (readApproved (updateApprovedCoursesInStorage code b s).storage) ∧
      (readApproved (updateApprovedCoursesInStorage code b s).storage).Nodup ∧
      (readApproved (updateApprovedCoursesInStorage code b s).storage).count code =
        (if b then 1 else 0) ∧
      (readApproved (updateApprovedCoursesInStorage code b s).storage).filter
          (fun x => x != code) =
        (readApproved s.storage).filter (fun x => x != code)) ∧
    (∀ (s : Page) (is : List Nat),
      (s.storage = none ∨ ∃ l, s.storage = some l ∧ l.Nodup) →
        (readApproved (clicks s is).storage).Nodup) := by
  constructor
  · intro s code b h
    have hnd := nodup_updatedApprovedList (readApproved s.storage) code b h
    refine ⟨rfl, hnd, ?_, ?_⟩
    · show (updatedApprovedList (readApproved s.storage) code b).count code = _
      cases b
      · have h0 : code ∉ updatedApprovedList (readApproved s.storage) code false := by
          simp [mem_updatedApprovedList]
        simpa using List.count_eq_zero.mpr h0
      · rw [List.count_eq_one_of_mem hnd (by simp [mem_updatedApprovedList])]
        rfl
    · show (updatedApprovedList (readApproved s.storage) code b).filter _ = _
      unfold updatedApprovedList
      cases b
      · simp
      · by_cases hc : code ∈ readApproved s.storage
        · simp [hc]
        · simp [hc, List.filter_append]
  · intro s is h
    apply nodup_storage_clicks
    rcases h with h | ⟨l, h, hl⟩
    · rw [h]; exact List.nodup_nil
    · rw [h]; exact hl

theorem stored_list_nodup_witness :
    ((readApproved (clicks pageAB [0]).storage).Nodup ∧
      (readApproved (updateApprovedCoursesInStorage "B" true (clicks pageAB [0])).storage) =
        ["A", "B"] ∧
      (readApproved (updateApprovedCoursesInStorage "B" true (clicks pageAB [0])).storage).Nodup ∧
      (readApproved (updateApprovedCoursesInStorage "B" true (clicks pageAB [0])).storage).count
        "B" = 1) ∧
    (pageAB.storage = none ∧
      (readApproved (clicks pageAB [0, 1, 1, 0, 0]).storage).Nodup) :=
  ⟨⟨by decide, by decide,
      (stored_list_nodup.1 (clicks pageAB [0]) "B" true (by decide)).2.1,
      (stored_list_nodup.1 (clicks pageAB [0]) "B" true (by decide)).2.2.1⟩,
    by decide, stored_list_nodup.2 pageAB [0, 1, 1, 0, 0] (Or.inl (by decide))⟩

/-- C11. A course with empty prerequisites is never blocked.  Start from a page on which no
course carries the blocked flag, run `loadApprovedCourses`, then handle any sequence of
clicks and timer callbacks.  In the state so reached every course whose
`data-prerequisites` is absent or empty does not carry the blocked flag, and a click on
such a course while it is not approved is not rejected: it runs `toggleCourseApproval`
and leaves the course approved. -/
theorem free_course_never_blocked (p : Page) (es : List Event)
    (hb : NoneBlocked p.courses) :
    (∀ c ∈ (run (loadApprovedCourses p) es).courses, NoPrerequisites c → c.blocked = false) ∧
    (∀ (i : Nat) (c : Course), (run (loadApprovedCourses p) es).courses[i]? = some c →
      NoPrerequisites c → c.approved = false →
        rejects (run (loadApprovedCourses p) es) i = false ∧
        click (run (loadApprovedCourses p) es) i =
          hideErrorMessage (toggleCourseApproval c.code i (run (loadApprovedCourses p) es)) ∧
        ∃ c', (click (run (loadApprovedCourses p) es) i).courses[i]? = some c' ∧
          c'.approved = true ∧ c'.blocked = false) := by
  have hinv := freeUnblocked_run es _ (freeUnblocked_load p hb)
  refine ⟨fun c hc hn => hinv c hc ((noPrerequisites_iff c).mp hn), ?_⟩
  intro i c h hn ha
  have hp : prerequisitesOf c = [] := (noPrerequisites_iff c).mp hn
  have hm : missingPrerequisites (run (loadApprovedCourses p) es).courses
      (prerequisitesOf c) = [] := by rw [hp]; rfl
  have hc := click_approve _ i c h ha hm
  refine ⟨by simp [rejects, h, hm], hc, ?_⟩
  rw [hc]
  refine ⟨_, toggle_getElem?_self c.code i _ c h, ?_, ?_⟩
  · rw [approved_updateCourse]; simp [toggleApproved, ha]
  · rw [blocked_updateCourse_of_approved _ _ (by simp [toggleApproved, ha])]
    exact hinv c (List.getElem?_mem h) hp

theorem free_course_never_blocked_witness :
    NoneBlocked pageAB.courses ∧
    (run (loadApprovedCourses pageAB)
        [Event.click 1, Event.timer 1, Event.click 0, Event.timer 0, Event.click 0]).courses =
      [⟨"A", "Algebra", none, false, false⟩, ⟨"B", "Calculo", some "A", false, true⟩] ∧
    (∀ c ∈ (run (loadApprovedCourses pageAB)
        [Event.click 1, Event.timer 1, Event.click 0, Event.timer 0, Event.click 0]).courses,
      NoPrerequisites c → c.blocked = false) :=
  ⟨by decide, by decide,
    (free_course_never_blocked pageAB
      [Event.click 1, Event.timer 1, Event.click 0, Event.timer 0, Event.click 0]
      (by decide)).1⟩

end Malla
